import Mathlib

/-!
Verification of the signed Louvain modularity optimizer
(`modularity_louvain_und_sign` from the repository's notebook).

The optimizer is embedded shallowly over exact rationals: numpy arrays
become total functions `ℕ → ℚ` (resp. `ℕ → ℕ → ℚ`) together with an
explicit dimension, the in-place accumulator updates become functional
updates, the two `while` loops become structural recursions whose fuel
mirrors the source's own iteration counters (1000 inner passes, 300
hierarchy levels, each cap raising the corresponding error), and the
seeded numpy permutation stream becomes an explicit oracle
`visit : ℕ → ℕ → List ℕ` giving the node order of each pass.
-/

unseal Rat.add Rat.mul Rat.sub Rat.inv

deriving instance DecidableEq for Except

namespace Brainz

/-- Dense rational matrix; the dimension is carried separately, mirroring
the numpy arrays of the source.  Entries outside the carried dimension are
never consulted by the algorithm. -/
abbrev Mat : Type := ℕ → ℕ → ℚ

/-- Dense rational vector. -/
abbrev Vec : Type := ℕ → ℚ

/-- The tolerance 1e-10 used both for accepting a single node move and for
the hierarchy termination test in the source. -/
def tol : ℚ := 1 / 10 ^ 10

/-- The error conditions the source can raise: the `KeyError` for an
unknown modularity type, the two `BCTParamError`s for the inner pass cap
and the hierarchy-level cap, and numpy's `ValueError` raised by
`np.max` on an empty array (reachable only for a 0-node input). -/
inductive BCTError : Type where
  | configError : BCTError
  | innerNonConvergence : BCTError
  | outerNonConvergence : BCTError
  | valueError : BCTError
deriving DecidableEq

/-- The human-readable messages attached to the raised errors in the
source. -/
def message : BCTError → String
  | .configError => "modularity type unknown"
  | .innerNonConvergence => "Infinite Loop was detected and stopped. This was probably caused by passing in a directed matrix."
  | .outerNonConvergence => "Modularity Infinite Loop Style A.  Please contact the developer with this error."
  | .valueError => "zero-size array to reduction operation maximum which has no identity"

/-- Positive part of the matrix: `W0 = W * (W > 0)`. -/
def posPart (W : Mat) : Mat := fun i j => if 0 < W i j then W i j else 0

/-- Negative part of the matrix: `W1 = -W * (W < 0)`. -/
def negPart (W : Mat) : Mat := fun i j => if W i j < 0 then -(W i j) else 0

/-- Total weight `np.sum` over the carried dimension. -/
def matSum (n : ℕ) (A : Mat) : ℚ :=
  ∑ i ∈ Finset.range n, ∑ j ∈ Finset.range n, A i j

/-- Column sum `np.sum(A, axis=0)`, the degree vector of the source. -/
def colSum (n : ℕ) (A : Mat) (j : ℕ) : ℚ :=
  ∑ i ∈ Finset.range n, A i j

/-- The four scalars fixed by the modularity variant: total positive and
negative weights `s0, s1` and the two scaling constants `d0, d1`. -/
structure Scales : Type where
  s0 : ℚ
  s1 : ℚ
  d0 : ℚ
  d1 : ℚ
deriving DecidableEq

/-- The `qtype` dispatch of the source: each of the five recognized
variants fixes `d0` and `d1` from the weight totals; any other string is
the `KeyError` case, modelled as `none`.  Division is the rational field
division (so `1 / 0 = 0`; the source's float produces `inf` here, but in
both cases the value is discarded by the zero adjustment below before it
can be used). -/
def qtypeScales (qtype : String) (s0 s1 : ℚ) : Option Scales :=
  if qtype = "smp" then some ⟨s0, s1, 1 / s0, 1 / s1⟩
  else if qtype = "gja" then some ⟨s0, s1, 1 / (s0 + s1), 1 / (s0 + s1)⟩
  else if qtype = "sta" then some ⟨s0, s1, 1 / s0, 1 / (s0 + s1)⟩
  else if qtype = "pos" then some ⟨s0, s1, 1 / s0, 0⟩
  else if qtype = "neg" then some ⟨s0, s1, 0, 1 / s1⟩
  else none

/-- The two zero-total adjustments of the source, in order: if `s0 = 0`
force `s0 = 1, d0 = 0`; if `s1 = 0` force `s1 = 1, d1 = 0`. -/
def adjustScales (sc : Scales) : Scales :=
  let a := if sc.s0 = 0 then (⟨1, sc.s1, 0, sc.d1⟩ : Scales) else sc
  if a.s1 = 0 then (⟨a.s0, 1, a.d0, 0⟩ : Scales) else a

/-- Variant dispatch followed by the zero-total adjustments, exactly the
setup the source performs before entering the hierarchy loop. -/
def scalesFor (qtype : String) (s0 s1 : ℚ) : Option Scales :=
  (qtypeScales qtype s0 s1).map adjustScales

/-- Whether the string is one of the five recognized modularity types. -/
def validQtype (q : String) : Bool :=
  q = "smp" || q = "gja" || q = "sta" || q = "pos" || q = "neg"

/-- The mutable working state of the local-moving loop: module assignment
`m` (1-based labels), module degrees `km0, km1` and node-to-module degrees
`knm0, knm1`. -/
structure LMState : Type where
  m : ℕ → ℕ
  km0 : Vec
  km1 : Vec
  knm0 : Mat
  knm1 : Mat

/-- The state at the start of a hierarchy level: singleton modules
(`m = np.arange(nh) + 1`), `km = kn` and `knm = W`. -/
def initState (W0 W1 : Mat) (kn0 kn1 : Vec) : LMState :=
  ⟨fun u => u + 1, kn0, kn1, W0, W1⟩

/-- The move delta the source computes for node `u` and candidate module
`mb`: the vectorized `dQ = d0 * dQ0 - d1 * dQ1` with
`dQ0 = knm0[u, :] + W0[u, u] - knm0[u, ma] - gamma * kn0[u] * (km0 + kn0[u] - km0[ma]) / s0`
(the self-loop and own-degree terms are added to every component by
broadcasting), followed by the overwrite `dQ[ma] = 0`. -/
def dQvec (gamma : ℚ) (sc : Scales) (W0 W1 : Mat) (kn0 kn1 : Vec)
    (st : LMState) (u mb : ℕ) : ℚ :=
  let ma := st.m u - 1
  if mb = ma then 0
  else
    sc.d0 * (st.knm0 u mb + W0 u u - st.knm0 u ma
              - gamma * kn0 u * (st.km0 mb + kn0 u - st.km0 ma) / sc.s0)
      - sc.d1 * (st.knm1 u mb + W1 u u - st.knm1 u ma
              - gamma * kn1 u * (st.km1 mb + kn1 u - st.km1 ma) / sc.s1)

/-- The full delta vector over the `nh` candidate modules, as a list. -/
def nodeScores (gamma : ℚ) (sc : Scales) (W0 W1 : Mat) (kn0 kn1 : Vec)
    (nh : ℕ) (st : LMState) (u : ℕ) : List ℚ :=
  (List.range nh).map (dQvec gamma sc W0 W1 kn0 kn1 st u)

/-- Model of `np.max` on a vector: the maximal entry (0 on the empty
vector, where the source would raise instead; the algorithm never takes
the maximum of an empty delta vector for a nonempty graph). -/
def listMax : List ℚ → ℚ
  | [] => 0
  | [x] => x
  | x :: y :: r => max x (listMax (y :: r))

/-- Index of the first entry reaching the bound `b`; model of `np.argmax`
when `b` is the maximum of the list (numpy returns the first occurrence of
the maximal value). -/
def firstMaxIdx : List ℚ → ℚ → ℕ
  | [], _ => 0
  | x :: r, b => if b ≤ x then 0 else firstMaxIdx r b + 1

/-- Pointwise vector update `f[c] += x`. -/
def updV (f : Vec) (c : ℕ) (x : ℚ) : Vec :=
  fun d => if d = c then f d + x else f d

/-- Columnwise matrix update `A[:, c] += w`. -/
def addCol (A : Mat) (c : ℕ) (w : ℕ → ℚ) : Mat :=
  fun v d => if d = c then A v d + w v else A v d

/-- Visit of a single node `u`: compute the delta vector, and when its
maximum strictly exceeds 1e-10 move `u` to the first module attaining the
maximum, updating `knm0, knm1, km0, km1` and `m` incrementally exactly as
the source does; returns the new state and whether a move happened. -/
def nodeStep (gamma : ℚ) (sc : Scales) (W0 W1 : Mat) (kn0 kn1 : Vec)
    (nh : ℕ) (st : LMState) (u : ℕ) : LMState × Bool :=
  let dQ := nodeScores gamma sc W0 W1 kn0 kn1 nh st u
  let maxDQ := listMax dQ
  if tol < maxDQ then
    let ma := st.m u - 1
    let mb := firstMaxIdx dQ maxDQ
    (⟨fun v => if v = u then mb + 1 else st.m v,
      updV (updV st.km0 mb (kn0 u)) ma (-(kn0 u)),
      updV (updV st.km1 mb (kn1 u)) ma (-(kn1 u)),
      addCol (addCol st.knm0 mb (fun v => W0 v u)) ma (fun v => -(W0 v u)),
      addCol (addCol st.knm1 mb (fun v => W1 v u)) ma (fun v => -(W1 v u))⟩,
     true)
  else (st, false)

/-- One full pass over the nodes in the given order; the flag records
whether any node moved during the pass. -/
def passNodes (gamma : ℚ) (sc : Scales) (W0 W1 : Mat) (kn0 kn1 : Vec)
    (nh : ℕ) (st : LMState) (order : List ℕ) : LMState × Bool :=
  order.foldl
    (fun p u =>
      let q := nodeStep gamma sc W0 W1 kn0 kn1 nh p.1 u
      (q.1, p.2 || q.2))
    (st, false)

/-- The inner `while flag` loop.  The fuel is the number of passes still
allowed: the source raises its non-convergence `BCTParamError` when the
pass counter `it` exceeds 1000, i.e. before running a 1001st pass, so the
loop is entered with fuel 1000 and fuel 0 raises.  The second counter `t`
numbers the calls to the permutation oracle (one per pass). -/
def passLoop (gamma : ℚ) (sc : Scales) (W0 W1 : Mat) (kn0 kn1 : Vec)
    (nh : ℕ) (visit : ℕ → ℕ → List ℕ) :
    ℕ → ℕ → LMState → Except BCTError (LMState × ℕ)
  | 0, _, _ => .error .innerNonConvergence
  | fuel + 1, t, st =>
    let p := passNodes gamma sc W0 W1 kn0 kn1 nh st (visit t nh)
    if p.2 then passLoop gamma sc W0 W1 kn0 kn1 nh visit fuel (t + 1) p.1
    else .ok (p.1, t + 1)

/-- The pass counter a run of the inner loop finishes with (the number of
the last pass is the count of permutation-oracle calls made). -/
def passLoopT (gamma : ℚ) (sc : Scales) (W0 W1 : Mat) (kn0 kn1 : Vec)
    (nh : ℕ) (visit : ℕ → ℕ → List ℕ) (fuel t : ℕ) (st : LMState) :
    Except BCTError ℕ :=
  (passLoop gamma sc W0 W1 kn0 kn1 nh visit fuel t st).map (fun p => p.2)

/-- Model of `np.unique(xs, return_inverse=True)` followed by `+= 1`:
each entry is replaced by one plus the number of distinct values of the
list strictly below it, i.e. its 1-based rank among the distinct values. -/
def renumber (xs : List ℕ) : List ℕ :=
  xs.map (fun x => (xs.dedup.filter (fun y => y < x)).length + 1)

/-- Sum of the block of `W` between (1-based) renumbered modules `a + 1`
and `b + 1`. -/
def blockSum (n : ℕ) (W : Mat) (lbl : ℕ → ℕ) (a b : ℕ) : ℚ :=
  ∑ i ∈ Finset.range n, ∑ j ∈ Finset.range n,
    if lbl i = a + 1 ∧ lbl j = b + 1 then W i j else 0

/-- The aggregated (super-node) matrix of the source: the upper triangle
is the block sum and the lower triangle mirrors it, exactly as the source
fills `wn0[u, v]` for `v ≥ u` and copies `wn0[v, u] = wn0[u, v]`. -/
def aggMat (n : ℕ) (W : Mat) (lbl : ℕ → ℕ) : Mat :=
  fun u v => if u ≤ v then blockSum n W lbl u v else blockSum n W lbl v u

/-- Trace of a square matrix over the carried dimension. -/
def traceMat (n : ℕ) (A : Mat) : ℚ :=
  ∑ i ∈ Finset.range n, A i i

/-- The quantity `np.sum(np.dot(A, A))`: the sum of all entries of the
matrix square. -/
def sumSq (n : ℕ) (A : Mat) : ℚ :=
  ∑ i ∈ Finset.range n, ∑ j ∈ Finset.range n, ∑ k ∈ Finset.range n,
    A i k * A k j

/-- Everything a finished run carries: the hierarchical per-original-node
assignments (the source's `ci` list without its leading `None`), the
modularity trace (the source's `q` list, including its two initial
sentinels `-1` and `0`), and the returned pair: renumbered final labels
and final modularity. -/
structure RunResult : Type where
  ciList : List (ℕ → ℕ)
  qs : List ℚ
  ciRet : List ℕ
  Q : ℚ

/-- The hierarchy loop.  Arguments: remaining levels (the source checks
`h > 300` at the top of the loop body with `h` starting at 1, so the loop
is entered with fuel 300 and fuel 0 raises), oracle call counter `t`,
current aggregated matrices and size, current per-original-node labels,
accumulated label vectors, the last two modularity values and the full
trace.  The `while` condition `q[h] - q[h-1] > 1e-10` is tested first,
then the cap. -/
def levelLoop (gamma : ℚ) (sc : Scales) (visit : ℕ → ℕ → List ℕ) (n : ℕ) :
    ℕ → ℕ → Mat → Mat → ℕ → (ℕ → ℕ) → List (ℕ → ℕ) → ℚ → ℚ → List ℚ →
    Except BCTError RunResult
  | fuel, t, W0, W1, nh, ciCur, ciAcc, qPrev, qCur, qs =>
    if tol < qCur - qPrev then
      match fuel with
      | 0 => .error .outerNonConvergence
      | fuel + 1 =>
        let kn0 : Vec := fun j => colSum nh W0 j
        let kn1 : Vec := fun j => colSum nh W1 j
        match passLoop gamma sc W0 W1 kn0 kn1 nh visit 1000 t
            (initState W0 W1 kn0 kn1) with
        | .error e => .error e
        | .ok (st, t') =>
          let mlist := renumber ((List.range nh).map st.m)
          if mlist = [] then .error .valueError
          else
            let nh' := mlist.foldl max 0
            let lbl : ℕ → ℕ := fun i => mlist.getD i 0
            let ciNew : ℕ → ℕ := fun v =>
              if ciCur v = 0 then 0 else mlist.getD (ciCur v - 1) 0
            let W0' := aggMat nh W0 lbl
            let W1' := aggMat nh W1 lbl
            let q0 := traceMat nh' W0' - sumSq nh' W0' / sc.s0
            let q1 := traceMat nh' W1' - sumSq nh' W1' / sc.s1
            let qNew := sc.d0 * q0 - sc.d1 * q1
            levelLoop gamma sc visit n fuel t' W0' W1' nh' ciNew
              (ciAcc ++ [ciNew]) qCur qNew (qs ++ [qNew])
    else
      .ok ⟨ciAcc, qs, renumber ((List.range n).map ciCur), qCur⟩

/-- The whole optimizer: positive/negative split, weight totals, variant
dispatch (raising the configuration `KeyError` on an unknown `qtype`),
zero-total adjustment, then the hierarchy loop started from the singleton
assignment `np.arange(n) + 1` and the modularity list `[-1, 0]`. -/
def modularityRun (W : Mat) (n : ℕ) (gamma : ℚ) (qtype : String)
    (visit : ℕ → ℕ → List ℕ) : Except BCTError RunResult :=
  let W0 := posPart W
  let W1 := negPart W
  let s0 := matSum n W0
  let s1 := matSum n W1
  match scalesFor qtype s0 s1 with
  | none => .error .configError
  | some sc =>
    levelLoop gamma sc visit n 300 0 W0 W1 n (fun v => v + 1)
      [fun v => v + 1] (-1) 0 [-1, 0]

/-- The source's return value: the renumbered final community labels and
the last modularity value. -/
def modularity_louvain_und_sign (W : Mat) (n : ℕ) (gamma : ℚ)
    (qtype : String) (visit : ℕ → ℕ → List ℕ) :
    Except BCTError (List ℕ × ℚ) :=
  (modularityRun W n gamma qtype visit).map (fun r => (r.ciRet, r.Q))

/-- Projection: the returned modularity value. -/
def runQ (W : Mat) (n : ℕ) (gamma : ℚ) (qtype : String)
    (visit : ℕ → ℕ → List ℕ) : Except BCTError ℚ :=
  (modularityRun W n gamma qtype visit).map (fun r => r.Q)

/-- Projection: the modularity trace (the source's `q` list). -/
def runQs (W : Mat) (n : ℕ) (gamma : ℚ) (qtype : String)
    (visit : ℕ → ℕ → List ℕ) : Except BCTError (List ℚ) :=
  (modularityRun W n gamma qtype visit).map (fun r => r.qs)

/-- Projection: the returned community-label vector. -/
def runCi (W : Mat) (n : ℕ) (gamma : ℚ) (qtype : String)
    (visit : ℕ → ℕ → List ℕ) : Except BCTError (List ℕ) :=
  (modularityRun W n gamma qtype visit).map (fun r => r.ciRet)

/-- Projection: the per-level label vectors over the original `n` nodes. -/
def runLevels (W : Mat) (n : ℕ) (gamma : ℚ) (qtype : String)
    (visit : ℕ → ℕ → List ℕ) : Except BCTError (List (List ℕ)) :=
  (modularityRun W n gamma qtype visit).map
    (fun r => r.ciList.map (fun f => (List.range n).map f))

/-- A permutation oracle that visits the nodes in index order in every
pass (one of the orders a seeded numpy generator can produce). -/
def idVisit : ℕ → ℕ → List ℕ := fun _ nh => List.range nh

/-- A linear-congruential step, used to model the seeded generator. -/
def lcgNext (x : ℕ) : ℕ := (1664525 * x + 1013904223) % 4294967296

/-- Modelled from the spec: the library call `np.random.seed(seed)`
followed by one `np.random.permutation(nh)` per pass is a deterministic
stream of permutations that is a function of the seed alone.  The
generator itself is external library code, so it is modelled by a simple
explicit such function (a seed- and pass-indexed rotation); all that the
determinism claim uses is that the stream depends only on the seed. -/
def seededVisit (seed : ℕ) : ℕ → ℕ → List ℕ := fun t nh =>
  let k := lcgNext (seed + t) % max nh 1
  (List.range nh).drop k ++ (List.range nh).take k

/-! Claim-side definitions: properties written from the specification's
wording, to be compared with the behaviour of the embedded source. -/

/-- The move delta as the specification sentence for the local-moving
phase states it: the self-loop term `W0[u,u]` and the own-degree term
`kn0[u]` enter only when the candidate module `mb` equals the current
module `ma` (and symmetrically for the negative part), with the delta for
staying forced to exactly 0.  Since the delta at `mb = ma` is forced to
zero, this formula never actually applies those two terms. -/
def dQspec (gamma : ℚ) (sc : Scales) (W0 W1 : Mat) (kn0 kn1 : Vec)
    (st : LMState) (u mb : ℕ) : ℚ :=
  let ma := st.m u - 1
  if mb = ma then 0
  else
    sc.d0 * (st.knm0 u mb - st.knm0 u ma
              - gamma * kn0 u * (st.km0 mb - st.km0 ma) / sc.s0)
      - sc.d1 * (st.knm1 u mb - st.knm1 u ma
              - gamma * kn1 u * (st.km1 mb - st.km1 ma) / sc.s1)

/-- The statements the source executes before the hierarchy loop, in
program order: seeding the generator, reading `n = len(W)`, computing the
positive and negative parts `W0, W1`, computing the weight totals
`s0, s1`, then the `qtype` dispatch (which either resolves the scaling
constants or raises), the zero-total adjustments, and entry into the
hierarchy loop. -/
inductive SetupStep : Type where
  | seedRng : SetupStep
  | sizeQuery : SetupStep
  | posNegSplit : SetupStep
  | weightTotals : SetupStep
  | qtypeResolved : SetupStep
  | qtypeRejected : SetupStep
  | zeroAdjust : SetupStep
  | hierarchyLoop : SetupStep
deriving DecidableEq

/-- The statement-order trace of the source's setup section, as a
function of the `qtype` argument (the other arguments do not influence
which setup statements run). -/
def setupTrace (qtype : String) : List SetupStep :=
  [.seedRng, .sizeQuery, .posNegSplit, .weightTotals] ++
    (if validQtype qtype then [.qtypeResolved, .zeroAdjust, .hierarchyLoop]
     else [.qtypeRejected])

/-- Which setup steps perform matrix computation (the sign split and the
weight totals are numpy whole-matrix operations; the hierarchy loop is
all matrix work). -/
def isMatrixComputation : SetupStep → Bool
  | .posNegSplit => true
  | .weightTotals => true
  | .hierarchyLoop => true
  | _ => false

/-- Whether the rejection of an unknown `qtype` happens before any
matrix-computation step in the setup trace (the spec's claim). -/
def detectedBeforeMatrixWork (qtype : String) : Bool :=
  ((setupTrace qtype).takeWhile (fun s => s ≠ SetupStep.qtypeRejected)).all
    (fun s => !(isMatrixComputation s))

/-- Shape of the modularity trace of a normally returning run: at least
the two sentinels; the returned value is the last entry; every
consecutive gap before the final one strictly exceeds the tolerance; the
final gap is at most the tolerance. -/
def TraceShape (l : List ℚ) (q : ℚ) : Prop :=
  2 ≤ l.length ∧
  q = l.getD (l.length - 1) 0 ∧
  (∀ i, i < l.length - 2 → tol < l.getD (i + 1) 0 - l.getD i 0) ∧
  l.getD (l.length - 1) 0 - l.getD (l.length - 2) 0 ≤ tol

/-- The labels of `l` form the contiguous range `{1, ..., k}` for some
`k ≤ n`, with no omissions. -/
def ContigList (l : List ℕ) (n : ℕ) : Prop :=
  ∃ k, k ≤ n ∧ l.toFinset = Finset.Icc 1 k

/-- The accumulator-consistency invariant of the local-moving loop: for
every module, the module degrees are the sums of the node degrees of its
current members, and for every node the node-to-module degrees are the
sums of the corresponding edge weights into the module's current
members. -/
def Consistent (n : ℕ) (W0 W1 : Mat) (kn0 kn1 : Vec) (st : LMState) : Prop :=
  (∀ c, c < n →
    st.km0 c = ∑ v ∈ Finset.range n, if st.m v = c + 1 then kn0 v else 0) ∧
  (∀ c, c < n →
    st.km1 c = ∑ v ∈ Finset.range n, if st.m v = c + 1 then kn1 v else 0) ∧
  (∀ v, v < n → ∀ c, c < n →
    st.knm0 v c = ∑ w ∈ Finset.range n, if st.m w = c + 1 then W0 v w else 0) ∧
  (∀ v, v < n → ∀ c, c < n →
    st.knm1 v c = ∑ w ∈ Finset.range n, if st.m w = c + 1 then W1 v w else 0)

/-- Everything the single-node visit rule promises: the computed maximum
is the maximum of the delta vector; a move happens exactly when it
strictly exceeds the tolerance; on a move the node goes to the first
module attaining the maximum and every accumulator changes by exactly the
increment of that one move; without a move the state is unchanged. -/
def MoveRuleSpec (gamma : ℚ) (sc : Scales) (W0 W1 : Mat) (kn0 kn1 : Vec)
    (nh : ℕ) (st : LMState) (u : ℕ) : Prop :=
  let dQ := nodeScores gamma sc W0 W1 kn0 kn1 nh st u
  let mx := listMax dQ
  let mb := firstMaxIdx dQ mx
  let ma := st.m u - 1
  let res := nodeStep gamma sc W0 W1 kn0 kn1 nh st u
  mx ∈ dQ ∧
  (∀ x ∈ dQ, x ≤ mx) ∧
  (res.2 = true ↔ tol < mx) ∧
  (tol < mx →
    mb < nh ∧
    dQ.getD mb 0 = mx ∧
    (∀ j, j < mb → dQ.getD j 0 < mx) ∧
    res.1.m u = mb + 1 ∧
    (∀ v, v ≠ u → res.1.m v = st.m v) ∧
    (∀ c, res.1.km0 c
      = st.km0 c + (if c = mb then kn0 u else 0) - (if c = ma then kn0 u else 0)) ∧
    (∀ c, res.1.km1 c
      = st.km1 c + (if c = mb then kn1 u else 0) - (if c = ma then kn1 u else 0)) ∧
    (∀ v c, res.1.knm0 v c
      = st.knm0 v c + (if c = mb then W0 v u else 0) - (if c = ma then W0 v u else 0)) ∧
    (∀ v c, res.1.knm1 v c
      = st.knm1 v c + (if c = mb then W1 v u else 0) - (if c = ma then W1 v u else 0))) ∧
  (¬ tol < mx → res = (st, false))

/-! Concrete instances used by the witnesses and counterexamples. -/

/-- Two nodes joined by a single unit edge. -/
def cW2 : Mat := fun i j => if (i = 0 ∧ j = 1) ∨ (i = 1 ∧ j = 0) then 1 else 0

/-- Six nodes: two unit-weight triangles on 0,1,2 and 3,4,5 with a
unit-weight bridge between nodes 2 and 3. -/
def cW6 : Mat := fun i j =>
  if i = j then 0
  else if (i < 3 ∧ j < 3) ∨ (3 ≤ i ∧ i < 6 ∧ 3 ≤ j ∧ j < 6) then 1
  else if (i = 2 ∧ j = 3) ∨ (i = 3 ∧ j = 2) then 1
  else 0

/-- Positive part of the two-node example. -/
def cPos2 : Mat := posPart cW2

/-- Positive degree vector of the two-node example. -/
def cKn2 : Vec := fun j => colSum 2 cPos2 j

/-- Negative degree vector of the two-node example. -/
def cKn2n : Vec := fun j => colSum 2 (negPart cW2) j

/-- The adjusted scales the run computes for the two-node example under
the positive-only variant: `s0 = 2, s1` forced to 1, `d0 = 1/2, d1 = 0`. -/
def cSc2 : Scales := ⟨2, 1, 1 / 2, 0⟩

/-- The everywhere-zero matrix. -/
def zeroM : Mat := fun _ _ => 0

/-- The everywhere-zero vector. -/
def zeroV : Vec := fun _ => 0

/-! Helper lemmas about the list maximum and the first-maximum index. -/

theorem listMax_ge {l : List ℚ} {x : ℚ} (hx : x ∈ l) : x ≤ listMax l := by
  induction l with
  | nil => cases hx
  | cons a r ih =>
    cases r with
    | nil =>
      rcases List.mem_cons.mp hx with h | h
      · simp [listMax, h]
      · cases h
    | cons b s =>
      rcases List.mem_cons.mp hx with h | h
      · subst h; exact le_max_left _ _
      · exact le_trans (ih h) (le_max_right _ _)

theorem listMax_mem {l : List ℚ} (hl : l ≠ []) : listMax l ∈ l := by
  induction l with
  | nil => exact absurd rfl hl
  | cons a r ih =>
    cases r with
    | nil => simp [listMax]
    | cons b s =>
      rcases max_choice a (listMax (b :: s)) with h | h
      · simp [listMax, h]
      · have := ih (by simp)
        simp only [listMax, h]
        exact List.mem_cons_of_mem _ this

theorem listMax_zero {l : List ℚ} (h : ∀ x ∈ l, x = 0) : listMax l = 0 := by
  induction l with
  | nil => rfl
  | cons a r ih =>
    cases r with
    | nil => simpa [listMax] using h a (by simp)
    | cons b s =>
      have ha : a = 0 := h a (by simp)
      have hr : listMax (b :: s) = 0 :=
        ih (fun x hx => h x (List.mem_cons_of_mem _ hx))
      simp [listMax, ha, hr]

theorem firstMaxIdx_lt_length {l : List ℚ} {b : ℚ} (hb : b ∈ l) :
    firstMaxIdx l b < l.length := by
  induction l with
  | nil => cases hb
  | cons a r ih =>
    by_cases hba : b ≤ a
    · simp [firstMaxIdx, hba]
    · have hbr : b ∈ r := by
        rcases List.mem_cons.mp hb with h | h
        · exact absurd (le_of_eq h) hba
        · exact h
      simpa [firstMaxIdx, hba] using ih hbr

theorem firstMaxIdx_getD {l : List ℚ} {b : ℚ} (hb : b ∈ l)
    (hmax : ∀ x ∈ l, x ≤ b) : l.getD (firstMaxIdx l b) 0 = b := by
  induction l with
  | nil => cases hb
  | cons a r ih =>
    by_cases hba : b ≤ a
    · have : a = b := le_antisymm (hmax a (by simp)) hba
      simp [firstMaxIdx, hba, this]
    · have hbr : b ∈ r := by
        rcases List.mem_cons.mp hb with h | h
        · exact absurd (le_of_eq h) hba
        · exact h
      simpa [firstMaxIdx, hba] using
        ih hbr (fun x hx => hmax x (List.mem_cons_of_mem _ hx))

theorem firstMaxIdx_first {l : List ℚ} {b : ℚ} :
    ∀ j, j < firstMaxIdx l b → l.getD j 0 < b := by
  induction l with
  | nil => intro j hj; simp [firstMaxIdx] at hj
  | cons a r ih =>
    intro j hj
    by_cases hba : b ≤ a
    · simp [firstMaxIdx, hba] at hj
    · simp only [firstMaxIdx, if_neg hba] at hj
      cases j with
      | zero => simpa using lt_of_not_le hba
      | succ j' => exact ih j' (Nat.lt_of_succ_lt_succ hj)

/-! C1: the source's move delta versus the one the spec states. -/

/-- C1: the spec asserts that the move delta is
`dQ0 = knm0[u, mb] + W0[u,u]·[mb==ma] - knm0[u, ma] - gamma·kn0[u]·(km0[mb] + kn0[u]·[mb==ma] - km0[ma]) / s0`
(self-loop and own-degree terms entering only when `mb = ma`).  This is
false: at the initial state of the two-node unit-edge graph under the
positive-only variant, the source's delta for moving node 0 into module 1
is 1/4, while the spec's formula gives 1/2. -/
theorem C1_counterexample :
    dQvec 1 cSc2 cPos2 (negPart cW2) cKn2 cKn2n
        (initState cPos2 (negPart cW2) cKn2 cKn2n) 0 1 = 1 / 4 ∧
    dQspec 1 cSc2 cPos2 (negPart cW2) cKn2 cKn2n
        (initState cPos2 (negPart cW2) cKn2 cKn2n) 0 1 = 1 / 2 ∧
    ((1 : ℚ) / 4 ≠ 1 / 2) ∧
    scalesFor ("pos") (matSum 2 cPos2) (matSum 2 (negPart cW2)) = some cSc2 := by
  refine ⟨by decide, by decide, by decide, by decide⟩

/-- C1 (amended): the self-loop term `W0[u,u]` and the own-degree term
`kn0[u]` enter the delta for every candidate module `mb ≠ ma` (the source
adds them by broadcasting), not only at `mb = ma`; the delta for staying
is still exactly 0.  Equivalently the source's delta exceeds the spec's
formula by the `mb`-independent offset
`d0·(W0[u,u] - gamma·kn0[u]²/s0) - d1·(W1[u,u] - gamma·kn1[u]²/s1)`. -/
theorem C1_delta_formula (gamma : ℚ) (sc : Scales) (W0 W1 : Mat)
    (kn0 kn1 : Vec) (st : LMState) (u : ℕ) :
    dQvec gamma sc W0 W1 kn0 kn1 st u (st.m u - 1) = 0 ∧
    (∀ mb, mb ≠ st.m u - 1 →
      dQvec gamma sc W0 W1 kn0 kn1 st u mb
        = dQspec gamma sc W0 W1 kn0 kn1 st u mb
          + (sc.d0 * (W0 u u - gamma * kn0 u * kn0 u / sc.s0)
             - sc.d1 * (W1 u u - gamma * kn1 u * kn1 u / sc.s1))) := by
  constructor
  · simp [dQvec]
  · intro mb hmb
    simp only [dQvec, dQspec, if_neg hmb]
    ring

/-- C1 (amended) witness at the two-node example: moving node 0 to module
1 has delta 1/2 plus the offset -1/4, i.e. 1/4. -/
theorem C1_delta_formula_witness :
    dQvec 1 cSc2 cPos2 (negPart cW2) cKn2 cKn2n
        (initState cPos2 (negPart cW2) cKn2 cKn2n) 0
        ((initState cPos2 (negPart cW2) cKn2 cKn2n).m 0 - 1) = 0 ∧
    ((1 : ℕ) ≠ (initState cPos2 (negPart cW2) cKn2 cKn2n).m 0 - 1) ∧
    dQvec 1 cSc2 cPos2 (negPart cW2) cKn2 cKn2n
        (initState cPos2 (negPart cW2) cKn2 cKn2n) 0 1
      = dQspec 1 cSc2 cPos2 (negPart cW2) cKn2 cKn2n
          (initState cPos2 (negPart cW2) cKn2 cKn2n) 0 1
        + (cSc2.d0 * (cPos2 0 0 - 1 * cKn2 0 * cKn2 0 / cSc2.s0)
           - cSc2.d1 * (negPart cW2 0 0 - 1 * cKn2n 0 * cKn2n 0 / cSc2.s1)) :=
  ⟨(C1_delta_formula 1 cSc2 cPos2 (negPart cW2) cKn2 cKn2n
      (initState cPos2 (negPart cW2) cKn2 cKn2n) 0).1,
   by decide,
   (C1_delta_formula 1 cSc2 cPos2 (negPart cW2) cKn2 cKn2n
      (initState cPos2 (negPart cW2) cKn2 cKn2n) 0).2 1 (by decide)⟩

/-! C2: behaviour on an unrecognized qtype. -/

/-- C2 (counterexample): the spec asserts the unknown-qtype error is
detected before any matrix computation; in the source the positive and
negative split and the weight totals are computed before the qtype
dispatch, so the detection is not before all matrix work. -/
theorem C2_counterexample :
    validQtype ("zzz") = false ∧ detectedBeforeMatrixWork ("zzz") = false := by
  refine ⟨by decide, by decide⟩

/-- C2 (amended): for every unrecognized `qtype` string and every input,
the run raises the configuration error and produces nothing else — no
hierarchy-level computation happens, the rejection occurring right after
the sign split and the weight totals in the setup section. -/
theorem C2_config_error (q : String) (h : validQtype q = false) :
    (∀ (W : Mat) (n : ℕ) (gamma : ℚ) (vis : ℕ → ℕ → List ℕ),
      modularityRun W n gamma q vis = .error .configError) ∧
    setupTrace q = [.seedRng, .sizeQuery, .posNegSplit, .weightTotals,
      .qtypeRejected] := by
  simp only [validQtype, Bool.or_eq_false_iff, decide_eq_false_iff_not] at h
  obtain ⟨⟨⟨⟨h1, h2⟩, h3⟩, h4⟩, h5⟩ := h
  constructor
  · intro W n gamma vis
    simp [modularityRun, scalesFor, qtypeScales, h1, h2, h3, h4, h5]
  · simp [setupTrace, validQtype, h1, h2, h3, h4, h5]

/-- C2 witness at the string "abc". -/
theorem C2_config_error_witness :
    validQtype ("abc") = false ∧
    modularityRun cW2 2 1 ("abc") idVisit = .error .configError ∧
    setupTrace ("abc") = [.seedRng, .sizeQuery, .posNegSplit, .weightTotals,
      .qtypeRejected] :=
  ⟨by decide,
   (C2_config_error ("abc") (by decide)).1 cW2 2 1 idVisit,
   (C2_config_error ("abc") (by decide)).2⟩

/-! C4: the scaling constants of the five variants. -/

/-- C4: each variant fixes `(d0, d1)` as stated — simple: `(1/s0, 1/s1)`;
gja: `(1/(s0+s1), 1/(s0+s1))`; standard: `(1/s0, 1/(s0+s1))`;
positive-only: `(1/s0, 0)`; negative-only: `(0, 1/s1)` — and a zero total
forces the corresponding `s` to 1 and `d` to 0. -/
theorem C4_scaling_constants (s0 s1 : ℚ) (h0 : s0 ≠ 0) (h1 : s1 ≠ 0) :
    scalesFor ("smp") s0 s1 = some ⟨s0, s1, 1 / s0, 1 / s1⟩ ∧
    scalesFor ("gja") s0 s1 = some ⟨s0, s1, 1 / (s0 + s1), 1 / (s0 + s1)⟩ ∧
    scalesFor ("sta") s0 s1 = some ⟨s0, s1, 1 / s0, 1 / (s0 + s1)⟩ ∧
    scalesFor ("pos") s0 s1 = some ⟨s0, s1, 1 / s0, 0⟩ ∧
    scalesFor ("neg") s0 s1 = some ⟨s0, s1, 0, 1 / s1⟩ ∧
    (∀ sc : Scales, sc.s0 = 0 →
      (adjustScales sc).s0 = 1 ∧ (adjustScales sc).d0 = 0) ∧
    (∀ sc : Scales, sc.s1 = 0 →
      (adjustScales sc).s1 = 1 ∧ (adjustScales sc).d1 = 0) := by
  refine ⟨?_, ?_, ?_, ?_, ?_, ?_, ?_⟩
  · simp [scalesFor, qtypeScales, adjustScales, h0, h1]
  · simp [scalesFor, qtypeScales, adjustScales, h0, h1]
  · simp [scalesFor, qtypeScales, adjustScales, h0, h1]
  · simp [scalesFor, qtypeScales, adjustScales, h0, h1]
  · simp [scalesFor, qtypeScales, adjustScales, h0, h1]
  · intro sc hs0
    by_cases hs1 : sc.s1 = 0 <;> simp [adjustScales, hs0, hs1]
  · intro sc hs1
    by_cases hs0 : sc.s0 = 0 <;> simp [adjustScales, hs0, hs1]

/-- C4 witness at `s0 = 2, s1 = 3` (and the forcing clauses at a scale
record with a zero total). -/
theorem C4_scaling_constants_witness :
    scalesFor ("smp") 2 3 = some ⟨2, 3, 1 / 2, 1 / 3⟩ ∧
    scalesFor ("neg") 2 3 = some ⟨2, 3, 0, 1 / 3⟩ ∧
    (adjustScales ⟨0, 3, 5, 7⟩).s0 = 1 ∧ (adjustScales ⟨0, 3, 5, 7⟩).d0 = 0 :=
  ⟨(C4_scaling_constants 2 3 (by decide) (by decide)).1,
   (C4_scaling_constants 2 3 (by decide) (by decide)).2.2.2.2.1,
   ((C4_scaling_constants 2 3 (by decide) (by decide)).2.2.2.2.2.1
      ⟨0, 3, 5, 7⟩ rfl).1,
   ((C4_scaling_constants 2 3 (by decide) (by decide)).2.2.2.2.2.1
      ⟨0, 3, 5, 7⟩ rfl).2⟩

/-! C6: determinism for a fixed seed. -/

/-- C6: with the seeded generator modelled as a function of the seed, two
runs with identical arguments and identical seeds return identical
community labels and identical modularity; the optimizer consults no
other state. -/
theorem C6_determinism (W : Mat) (n : ℕ) (gamma : ℚ) (qtype : String)
    (s1 s2 : ℕ) (h : s1 = s2) :
    modularity_louvain_und_sign W n gamma qtype (seededVisit s1)
      = modularity_louvain_und_sign W n gamma qtype (seededVisit s2) := by
  rw [h]

/-- C6 witness: two runs with seed 7 on the two-node example coincide. -/
theorem C6_determinism_witness :
    (7 : ℕ) = 7 ∧
    modularity_louvain_und_sign cW2 2 1 ("sta") (seededVisit 7)
      = modularity_louvain_und_sign cW2 2 1 ("sta") (seededVisit 7) :=
  ⟨rfl, C6_determinism cW2 2 1 ("sta") 7 7 rfl⟩

/-! C8: the single-node move rule. -/

theorem nodeScores_length (gamma : ℚ) (sc : Scales) (W0 W1 : Mat)
    (kn0 kn1 : Vec) (nh : ℕ) (st : LMState) (u : ℕ) :
    (nodeScores gamma sc W0 W1 kn0 kn1 nh st u).length = nh := by
  simp [nodeScores]

/-- C8: within a pass, node `u` moves iff the maximal delta over all
candidate modules strictly exceeds 1e-10; it then goes to the first
(least-index) module attaining the maximum, and all four accumulator
families change by exactly the increments of that one move. -/
theorem C8_move_rule (gamma : ℚ) (sc : Scales) (W0 W1 : Mat)
    (kn0 kn1 : Vec) (nh : ℕ) (st : LMState) (u : ℕ) (h : 1 ≤ nh) :
    MoveRuleSpec gamma sc W0 W1 kn0 kn1 nh st u := by
  have hne : nodeScores gamma sc W0 W1 kn0 kn1 nh st u ≠ [] := by
    intro hcon
    have := nodeScores_length gamma sc W0 W1 kn0 kn1 nh st u
    rw [hcon] at this
    simp at this
    omega
  unfold MoveRuleSpec
  refine ⟨listMax_mem hne, fun x hx => listMax_ge hx, ?_, ?_, ?_⟩
  · by_cases htol :
      tol < listMax (nodeScores gamma sc W0 W1 kn0 kn1 nh st u) <;>
      simp [nodeStep, htol]
  · intro htol
    refine ⟨?_, ?_, ?_, ?_, ?_, ?_, ?_, ?_, ?_⟩
    · have := firstMaxIdx_lt_length (listMax_mem hne)
      rwa [nodeScores_length] at this
    · exact firstMaxIdx_getD (listMax_mem hne) (fun x hx => listMax_ge hx)
    · exact fun j hj => firstMaxIdx_first j hj
    · simp [nodeStep, htol]
    · intro v hv; simp [nodeStep, htol, hv]
    · intro c; simp only [nodeStep, if_pos htol, updV]; split_ifs <;> ring
    · intro c; simp only [nodeStep, if_pos htol, updV]; split_ifs <;> ring
    · intro v c; simp only [nodeStep, if_pos htol, addCol]; split_ifs <;> ring
    · intro v c; simp only [nodeStep, if_pos htol, addCol]; split_ifs <;> ring
  · intro htol
    simp [nodeStep, htol]

/-- C8 witness at node 0 of the two-node example. -/
theorem C8_move_rule_witness :
    (1 : ℕ) ≤ 2 ∧
    MoveRuleSpec 1 cSc2 cPos2 (negPart cW2) cKn2 cKn2n 2
      (initState cPos2 (negPart cW2) cKn2 cKn2n) 0 :=
  ⟨by decide,
   C8_move_rule 1 cSc2 cPos2 (negPart cW2) cKn2 cKn2n 2
     (initState cPos2 (negPart cW2) cKn2 cKn2n) 0 (by decide)⟩

/-! C10: the accumulators stay consistent with the module assignment. -/

theorem sum_ite_update (n u : ℕ) (hu : u < n) (m : ℕ → ℕ)
    (lblNew lbl : ℕ) (wt : ℕ → ℚ) :
    (∑ w ∈ Finset.range n,
        if (if w = u then lblNew else m w) = lbl then wt w else 0)
      = (∑ w ∈ Finset.range n, if m w = lbl then wt w else 0)
        + (if lblNew = lbl then wt u else 0)
        - (if m u = lbl then wt u else 0) := by
  have hmem : u ∈ Finset.range n := Finset.mem_range.mpr hu
  rw [← Finset.sum_erase_add _ _ hmem, ← Finset.sum_erase_add _
    (fun w => if m w = lbl then wt w else 0) hmem]
  have hcongr : ∀ w ∈ (Finset.range n).erase u,
      (if (if w = u then lblNew else m w) = lbl then wt w else 0)
        = (if m w = lbl then wt w else 0) := by
    intro w hw
    have hne : w ≠ u := Finset.ne_of_mem_erase hw
    simp [hne]
  rw [Finset.sum_congr rfl hcongr]
  simp only [if_pos rfl]
  split_ifs <;> ring

theorem sum_singleton_label (n c : ℕ) (hc : c < n) (g : ℕ → ℚ) :
    (∑ v ∈ Finset.range n, if v + 1 = c + 1 then g v else 0) = g c := by
  have h1 : ∀ v ∈ Finset.range n,
      (if v + 1 = c + 1 then g v else 0) = (if v = c then g v else 0) := by
    intro v _
    simp [Nat.add_right_cancel_iff]
  rw [Finset.sum_congr rfl h1, Finset.sum_ite_eq']
  simp [Finset.mem_range.mpr hc]

/-- C10: at the start of a level the accumulators are consistent with the
singleton assignment, and every accepted (or refused) single-node visit
preserves consistency of `km0, km1, knm0, knm1` with the current module
assignment. -/
theorem C10_accumulator_invariant (n : ℕ) (gamma : ℚ) (sc : Scales)
    (W0 W1 : Mat) (kn0 kn1 : Vec) :
    Consistent n W0 W1 kn0 kn1 (initState W0 W1 kn0 kn1) ∧
    (∀ st u, u < n → 1 ≤ st.m u → Consistent n W0 W1 kn0 kn1 st →
      Consistent n W0 W1 kn0 kn1
        (nodeStep gamma sc W0 W1 kn0 kn1 n st u).1) := by
  constructor
  · refine ⟨?_, ?_, ?_, ?_⟩
    · intro c hc
      exact (sum_singleton_label n c hc kn0).symm
    · intro c hc
      exact (sum_singleton_label n c hc kn1).symm
    · intro v _ c hc
      exact (sum_singleton_label n c hc (fun w => W0 v w)).symm
    · intro v _ c hc
      exact (sum_singleton_label n c hc (fun w => W1 v w)).symm
  · intro st u hu hm hC
    obtain ⟨hkm0, hkm1, hknm0, hknm1⟩ := hC
    by_cases htol :
      tol < listMax (nodeScores gamma sc W0 W1 kn0 kn1 n st u)
    · simp only [nodeStep, if_pos htol]
      set mb := firstMaxIdx (nodeScores gamma sc W0 W1 kn0 kn1 n st u)
        (listMax (nodeScores gamma sc W0 W1 kn0 kn1 n st u)) with hmb
      have e1 : ∀ c : ℕ, (mb + 1 = c + 1) ↔ (c = mb) := by omega
      have e2 : ∀ c : ℕ, (st.m u = c + 1) ↔ (c = st.m u - 1) := by omega
      refine ⟨?_, ?_, ?_, ?_⟩
      · intro c hc
        rw [sum_ite_update n u hu st.m (mb + 1) (c + 1) kn0,
          ← hkm0 c hc]
        simp only [updV, e1 c, e2 c]
        split_ifs <;> ring
      · intro c hc
        rw [sum_ite_update n u hu st.m (mb + 1) (c + 1) kn1,
          ← hkm1 c hc]
        simp only [updV, e1 c, e2 c]
        split_ifs <;> ring
      · intro v hv c hc
        rw [sum_ite_update n u hu st.m (mb + 1) (c + 1) (fun w => W0 v w),
          ← hknm0 v hv c hc]
        simp only [addCol, e1 c, e2 c]
        split_ifs <;> ring
      · intro v hv c hc
        rw [sum_ite_update n u hu st.m (mb + 1) (c + 1) (fun w => W1 v w),
          ← hknm1 v hv c hc]
        simp only [addCol, e1 c, e2 c]
        split_ifs <;> ring
    · simp only [nodeStep, if_neg htol]
      exact ⟨hkm0, hkm1, hknm0, hknm1⟩

/-- C10 witness: the two-node example, with node 0 visited once from the
initial state. -/
theorem C10_accumulator_invariant_witness :
    Consistent 2 cPos2 (negPart cW2) cKn2 cKn2n
      (initState cPos2 (negPart cW2) cKn2 cKn2n) ∧
    ((0 : ℕ) < 2) ∧
    Consistent 2 cPos2 (negPart cW2) cKn2 cKn2n
      (nodeStep 1 cSc2 cPos2 (negPart cW2) cKn2 cKn2n 2
        (initState cPos2 (negPart cW2) cKn2 cKn2n) 0).1 :=
  ⟨(C10_accumulator_invariant 2 1 cSc2 cPos2 (negPart cW2) cKn2 cKn2n).1,
   by decide,
   (C10_accumulator_invariant 2 1 cSc2 cPos2 (negPart cW2) cKn2 cKn2n).2
     (initState cPos2 (negPart cW2) cKn2 cKn2n) 0 (by decide) (by decide)
     (C10_accumulator_invariant 2 1 cSc2 cPos2 (negPart cW2) cKn2 cKn2n).1⟩

/-! Helper lemmas about the two loops. -/

theorem passLoop_ok_count (gamma : ℚ) (sc : Scales) (W0 W1 : Mat)
    (kn0 kn1 : Vec) (nh : ℕ) (vis : ℕ → ℕ → List ℕ) :
    ∀ fuel t st out,
      passLoop gamma sc W0 W1 kn0 kn1 nh vis fuel t st = .ok out →
      out.2 - t ≤ fuel := by
  intro fuel
  induction fuel with
  | zero =>
    intro t st out h
    simp [passLoop] at h
  | succ f ih =>
    intro t st out h
    rw [passLoop] at h
    by_cases hmv : (passNodes gamma sc W0 W1 kn0 kn1 nh st (vis t nh)).2
    · rw [if_pos hmv] at h
      have := ih (t + 1) _ out h
      omega
    · rw [if_neg hmv] at h
      cases h
      simp

theorem levelLoop_qs_len (gamma : ℚ) (sc : Scales) (vis : ℕ → ℕ → List ℕ)
    (n : ℕ) :
    ∀ fuel t W0 W1 nh ciCur ciAcc qPrev qCur qs r,
      levelLoop gamma sc vis n fuel t W0 W1 nh ciCur ciAcc qPrev qCur qs
        = .ok r →
      r.qs.length ≤ qs.length + fuel := by
  intro fuel
  induction fuel with
  | zero =>
    intro t W0 W1 nh ciCur ciAcc qPrev qCur qs r h
    rw [levelLoop] at h
    by_cases hc : tol < qCur - qPrev
    · rw [if_pos hc] at h; cases h
    · rw [if_neg hc] at h; cases h; simp
  | succ f ih =>
    intro t W0 W1 nh ciCur ciAcc qPrev qCur qs r h
    rw [levelLoop] at h
    by_cases hc : tol < qCur - qPrev
    · rw [if_pos hc] at h
      dsimp only at h
      cases hp : passLoop gamma sc W0 W1 (fun j => colSum nh W0 j)
          (fun j => colSum nh W1 j) nh vis 1000 t (initState W0 W1
            (fun j => colSum nh W0 j) (fun j => colSum nh W1 j)) with
      | error e => rw [hp] at h; cases h
      | ok p =>
        obtain ⟨st, t'⟩ := p
        rw [hp] at h
        dsimp only at h
        by_cases hml : renumber ((List.range nh).map st.m) = []
        · rw [if_pos hml] at h; cases h
        · rw [if_neg hml] at h
          have := ih _ _ _ _ _ _ _ _ _ _ h
          simp only [List.length_append, List.length_cons,
            List.length_nil] at this
          omega
    · rw [if_neg hc] at h; cases h; simp

theorem getD_concat_last (l : List ℚ) (x : ℚ) : (l ++ [x]).getD l.length 0 = x := by
  rw [List.getD_append_right l [x] 0 l.length (le_refl _)]
  simp

/-- Invariant carried by the hierarchy loop: the trace list always ends in
the two modularity values being compared, and all earlier gaps exceeded
the tolerance; on normal exit this yields the claimed trace shape. -/
theorem levelLoop_trace (gamma : ℚ) (sc : Scales) (vis : ℕ → ℕ → List ℕ)
    (n : ℕ) :
    ∀ fuel t W0 W1 nh ciCur ciAcc qPrev qCur qs r,
      levelLoop gamma sc vis n fuel t W0 W1 nh ciCur ciAcc qPrev qCur qs
        = .ok r →
      2 ≤ qs.length →
      qs.getD (qs.length - 1) 0 = qCur →
      qs.getD (qs.length - 2) 0 = qPrev →
      (∀ i, i < qs.length - 2 → tol < qs.getD (i + 1) 0 - qs.getD i 0) →
      TraceShape r.qs r.Q := by
  intro fuel
  induction fuel with
  | zero =>
    intro t W0 W1 nh ciCur ciAcc qPrev qCur qs r h hlen hlast hprev hgaps
    rw [levelLoop] at h
    by_cases hc : tol < qCur - qPrev
    · rw [if_pos hc] at h; cases h
    · rw [if_neg hc] at h
      cases h
      refine ⟨hlen, hlast.symm, hgaps, ?_⟩
      rw [hlast, hprev]
      linarith
  | succ f ih =>
    intro t W0 W1 nh ciCur ciAcc qPrev qCur qs r h hlen hlast hprev hgaps
    rw [levelLoop] at h
    by_cases hc : tol < qCur - qPrev
    · rw [if_pos hc] at h
      dsimp only at h
      cases hp : passLoop gamma sc W0 W1 (fun j => colSum nh W0 j)
          (fun j => colSum nh W1 j) nh vis 1000 t (initState W0 W1
            (fun j => colSum nh W0 j) (fun j => colSum nh W1 j)) with
      | error e => rw [hp] at h; cases h
      | ok p =>
        obtain ⟨st, t'⟩ := p
        rw [hp] at h
        dsimp only at h
        by_cases hml : renumber ((List.range nh).map st.m) = []
        · rw [if_pos hml] at h; cases h
        · rw [if_neg hml] at h
          refine ih _ _ _ _ _ _ _ _ _ _ h ?_ ?_ ?_ ?_
          · simp only [List.length_append, List.length_cons, List.length_nil]
            omega
          · have hL : (qs ++ [sc.d0 * (traceMat (List.foldl max 0
                (renumber ((List.range nh).map st.m)))
                  (aggMat nh W0 (fun i =>
                    (renumber ((List.range nh).map st.m)).getD i 0))
                - sumSq (List.foldl max 0 (renumber ((List.range nh).map st.m)))
                  (aggMat nh W0 (fun i =>
                    (renumber ((List.range nh).map st.m)).getD i 0)) / sc.s0)
              - sc.d1 * (traceMat (List.foldl max 0
                (renumber ((List.range nh).map st.m)))
                  (aggMat nh W1 (fun i =>
                    (renumber ((List.range nh).map st.m)).getD i 0))
                - sumSq (List.foldl max 0 (renumber ((List.range nh).map st.m)))
                  (aggMat nh W1 (fun i =>
                    (renumber ((List.range nh).map st.m)).getD i 0)) / sc.s1)]).length
              - 1 = qs.length := by
              simp
            rw [hL]
            exact getD_concat_last qs _
          · have hL : ∀ x : ℚ, (qs ++ [x]).length - 2 = qs.length - 1 := by
              intro x
              simp only [List.length_append, List.length_cons, List.length_nil]
              omega
            rw [hL]
            rw [List.getD_append qs _ 0 (qs.length - 1) (by omega)]
            exact hlast
          · intro i hi
            simp only [List.length_append, List.length_cons,
              List.length_nil] at hi
            by_cases hio : i < qs.length - 2
            · rw [List.getD_append qs _ 0 i (by omega),
                List.getD_append qs _ 0 (i + 1) (by omega)]
              exact hgaps i hio
            · have hieq : i = qs.length - 2 := by omega
              subst hieq
              have h1 : qs.length - 2 + 1 = qs.length - 1 := by omega
              rw [h1, List.getD_append qs _ 0 (qs.length - 1) (by omega),
                List.getD_append qs _ 0 (qs.length - 2) (by omega),
                hlast, hprev]
              exact hc
    · rw [if_neg hc] at h
      cases h
      refine ⟨hlen, hlast.symm, hgaps, ?_⟩
      rw [hlast, hprev]
      linarith

set_option maxRecDepth 1000000

/-- C3 (counterexample): the spec claims the per-level modularity values
are non-decreasing and the returned Q is the maximum reached.  On the
two-triangle graph with resolution 1/4 and the positive-only variant the
run returns normally with trace `[-1, 0, 5/14, 0]`: the first computed
level reaches 5/14, the second level drops back to 0 (the level
modularity formula does not contain gamma, so a gamma-guided move can
lower it), and the returned Q is 0, which is neither the maximum nor a
non-decreasing continuation. -/
theorem C3_counterexample :
    runQs cW6 6 (1 / 4) ("pos") idVisit = .ok [-1, 0, 5 / 14, 0] ∧
    runQ cW6 6 (1 / 4) ("pos") idVisit = .ok 0 ∧
    ¬ ((5 : ℚ) / 14 ≤ 0) := by
  refine ⟨by decide, by decide, by decide⟩

/-- C3 (amended): for every run that returns normally, the returned Q
equals the last entry of the modularity trace, every consecutive pair of
trace entries before the final one differs by strictly more than 1e-10,
and the final entry exceeds its predecessor by at most 1e-10 (it may also
be smaller: the trace need not be non-decreasing and the returned Q need
not be the maximum when gamma differs from 1). -/
theorem C3_trace_of_run (W : Mat) (n : ℕ) (gamma : ℚ) (qtype : String)
    (vis : ℕ → ℕ → List ℕ) (l : List ℚ) (q : ℚ)
    (hl : runQs W n gamma qtype vis = .ok l)
    (hq : runQ W n gamma qtype vis = .ok q) :
    TraceShape l q := by
  cases hr : modularityRun W n gamma qtype vis with
  | error e =>
    rw [runQs, hr] at hl
    simp [Except.map] at hl
  | ok r =>
    rw [runQs, hr] at hl
    rw [runQ, hr] at hq
    simp only [Except.map, Except.ok.injEq] at hl hq
    subst hl
    subst hq
    rw [modularityRun] at hr
    cases hsc : scalesFor qtype (matSum n (posPart W))
        (matSum n (negPart W)) with
    | none => rw [hsc] at hr; cases hr
    | some sc =>
      rw [hsc] at hr
      dsimp only at hr
      refine levelLoop_trace gamma sc vis n 300 0 (posPart W) (negPart W) n
        _ _ (-1) 0 _ r hr (by simp) (by norm_num) (by norm_num) ?_
      intro i hi
      simp at hi

/-- C3 witness: a standard-variant run on the two-triangle graph, whose
trace is `[-1, 0, 5/14, 5/14]` with returned Q `5/14`. -/
theorem C3_trace_of_run_witness :
    runQs cW6 6 1 ("sta") idVisit = .ok [-1, 0, 5 / 14, 5 / 14] ∧
    runQ cW6 6 1 ("sta") idVisit = .ok (5 / 14) ∧
    TraceShape [-1, 0, 5 / 14, 5 / 14] (5 / 14) :=
  ⟨by decide, by decide,
   C3_trace_of_run cW6 6 1 ("sta") idVisit _ _ (by decide) (by decide)⟩

/-! Helper lemmas for label contiguity (C5). -/

theorem renumber_length (xs : List ℕ) : (renumber xs).length = xs.length := by
  simp [renumber]

theorem filter_lt_card (xs : List ℕ) (x : ℕ) :
    (xs.dedup.filter (fun y => y < x)).length
      = (xs.toFinset.filter (fun y => y < x)).card := by
  classical
  have hnd : (xs.dedup.filter (fun y => decide (y < x))).Nodup :=
    (List.nodup_dedup xs).filter _
  rw [← List.toFinset_card_of_nodup hnd]
  congr 1
  ext a
  simp [List.mem_filter, List.mem_dedup]

theorem rank_lt_card {xs : List ℕ} {x : ℕ} (hx : x ∈ xs.toFinset) :
    (xs.toFinset.filter (fun y => y < x)).card < xs.toFinset.card := by
  classical
  refine Finset.card_lt_card ?_
  refine Finset.ssubset_iff_of_subset (Finset.filter_subset _ _) |>.mpr ?_
  exact ⟨x, hx, by simp⟩

theorem list_toFinset_map (l : List ℕ) (f : ℕ → ℕ) :
    (l.map f).toFinset = l.toFinset.image f := by
  ext a
  simp

theorem list_toFinset_dedup (l : List ℕ) : l.dedup.toFinset = l.toFinset := by
  ext a
  simp [List.mem_dedup]

theorem rank_strict_mono {xs : List ℕ} {a b : ℕ} (ha : a ∈ xs.toFinset)
    (hab : a < b) :
    (xs.toFinset.filter (fun y => y < a)).card
      < (xs.toFinset.filter (fun y => y < b)).card := by
  classical
  have hsub : xs.toFinset.filter (fun y => y < a)
      ⊆ xs.toFinset.filter (fun y => y < b) := by
    intro y hy
    simp only [Finset.mem_filter] at hy ⊢
    exact ⟨hy.1, lt_trans hy.2 hab⟩
  refine Finset.card_lt_card
    ((Finset.ssubset_iff_of_subset hsub).mpr ⟨a, ?_, ?_⟩)
  · simp [Finset.mem_filter, ha, hab]
  · simp [Finset.mem_filter]

/-- The renumbered labels are exactly the contiguous range from 1 to the
number of distinct original labels. -/
theorem renumber_toFinset (xs : List ℕ) :
    (renumber xs).toFinset = Finset.Icc 1 xs.dedup.length := by
  classical
  rw [renumber, list_toFinset_map]
  have hcard : xs.toFinset.card = xs.dedup.length := by
    rw [← list_toFinset_dedup xs,
      List.toFinset_card_of_nodup (List.nodup_dedup xs)]
  have himgeq : xs.toFinset.image
      (fun x => (xs.dedup.filter (fun y => y < x)).length + 1)
      = xs.toFinset.image
        (fun x => (xs.toFinset.filter (fun y => y < x)).card + 1) :=
    Finset.image_congr (fun x _ => by rw [filter_lt_card])
  rw [himgeq]
  have hsubset : xs.toFinset.image
      (fun x => (xs.toFinset.filter (fun y => y < x)).card + 1)
      ⊆ Finset.Icc 1 xs.dedup.length := by
    intro y hy
    obtain ⟨x, hx, rfl⟩ := Finset.mem_image.mp hy
    have := rank_lt_card hx
    rw [hcard] at this
    exact Finset.mem_Icc.mpr ⟨by omega, by omega⟩
  have hinj : Set.InjOn
      (fun x => (xs.toFinset.filter (fun y => y < x)).card + 1)
      xs.toFinset := by
    intro a ha b hb hab
    by_contra hne
    rcases Nat.lt_or_ge a b with h | h
    · have := rank_strict_mono ha h
      simp only [] at hab
      omega
    · have hba : b < a := by omega
      have := rank_strict_mono hb hba
      simp only [] at hab
      omega
  have hcardimg : (xs.toFinset.image
      (fun x => (xs.toFinset.filter (fun y => y < x)).card + 1)).card
      = xs.dedup.length := by
    rw [Finset.card_image_of_injOn hinj, hcard]
  refine Finset.eq_of_subset_of_card_le hsubset ?_
  rw [hcardimg, Nat.card_Icc]
  omega

theorem foldl_max_le_acc (l : List ℕ) : ∀ a : ℕ, a ≤ l.foldl max a := by
  induction l with
  | nil => intro a; simp
  | cons x r ih =>
    intro a
    simp only [List.foldl_cons]
    exact le_trans (le_max_left a x) (ih (max a x))

theorem foldl_max_ge_mem (l : List ℕ) :
    ∀ a x, x ∈ l → x ≤ l.foldl max a := by
  induction l with
  | nil => intro a x hx; cases hx
  | cons y r ih =>
    intro a x hx
    simp only [List.foldl_cons]
    rcases List.mem_cons.mp hx with h | h
    · subst h
      exact le_trans (le_max_right a x) (foldl_max_le_acc r (max a x))
    · exact ih (max a y) x h

theorem foldl_max_mem (l : List ℕ) :
    ∀ a, l.foldl max a = a ∨ l.foldl max a ∈ l := by
  induction l with
  | nil => intro a; left; rfl
  | cons x r ih =>
    intro a
    rcases ih (max a x) with h | h
    · rcases max_choice a x with h2 | h2
      · left
        rw [List.foldl_cons, h, h2]
      · right
        rw [List.foldl_cons, h, h2]
        exact List.mem_cons_self x r
    · right
      rw [List.foldl_cons]
      exact List.mem_cons_of_mem x h

theorem foldl_max_of_Icc (l : List ℕ) (k : ℕ) (hne : l ≠ [])
    (h : l.toFinset = Finset.Icc 1 k) : l.foldl max 0 = k := by
  have hk1 : 1 ≤ k := by
    obtain ⟨x, hx⟩ := List.exists_mem_of_ne_nil l hne
    have hx2 : x ∈ Finset.Icc 1 k := h ▸ List.mem_toFinset.mpr hx
    have := Finset.mem_Icc.mp hx2
    omega
  have hkmem : k ∈ l := by
    have : k ∈ Finset.Icc 1 k := Finset.mem_Icc.mpr ⟨hk1, le_refl k⟩
    rw [← h] at this
    exact List.mem_toFinset.mp this
  have hge : k ≤ l.foldl max 0 := foldl_max_ge_mem l 0 k hkmem
  have hle : l.foldl max 0 ≤ k := by
    rcases foldl_max_mem l 0 with h0 | hmem
    · omega
    · have : l.foldl max 0 ∈ Finset.Icc 1 k := h ▸ List.mem_toFinset.mpr hmem
      exact (Finset.mem_Icc.mp this).2
  omega

theorem toFinset_map_range (n : ℕ) (f : ℕ → ℕ) :
    ((List.range n).map f).toFinset = (Finset.range n).image f := by
  ext a
  simp

theorem range_image_succ (n : ℕ) :
    (Finset.range n).image (fun v => v + 1) = Finset.Icc 1 n := by
  ext x
  simp only [Finset.mem_image, Finset.mem_range, Finset.mem_Icc]
  constructor
  · rintro ⟨v, hv, rfl⟩
    omega
  · intro hx
    exact ⟨x - 1, by omega, by omega⟩

/-- Composing the per-original-node labels with the renumbered module
labels of the level yields exactly the label set of the renumbered
module list. -/
theorem image_comp_getD (n nh : ℕ) (ciCur : ℕ → ℕ) (mlist : List ℕ)
    (hlen : mlist.length = nh)
    (himg : (Finset.range n).image ciCur = Finset.Icc 1 nh) :
    (Finset.range n).image
        (fun v => if ciCur v = 0 then 0 else mlist.getD (ciCur v - 1) 0)
      = mlist.toFinset := by
  ext x
  simp only [Finset.mem_image, Finset.mem_range, List.mem_toFinset]
  constructor
  · rintro ⟨v, hv, rfl⟩
    have hmem : ciCur v ∈ Finset.Icc 1 nh := by
      rw [← himg]
      exact Finset.mem_image_of_mem _ (Finset.mem_range.mpr hv)
    have h1 := Finset.mem_Icc.mp hmem
    rw [if_neg (by omega)]
    have hidx : ciCur v - 1 < mlist.length := by omega
    rw [List.getD_eq_getElem _ _ hidx]
    exact List.getElem_mem hidx
  · intro hx
    obtain ⟨i, hi, hgi⟩ := List.getElem_of_mem hx
    have hmem : i + 1 ∈ Finset.Icc 1 nh := Finset.mem_Icc.mpr
      ⟨by omega, by omega⟩
    rw [← himg] at hmem
    obtain ⟨v, hv, hcv⟩ := Finset.mem_image.mp hmem
    refine ⟨v, Finset.mem_range.mp hv, ?_⟩
    rw [hcv, if_neg (by omega)]
    have hii : i + 1 - 1 = i := by omega
    rw [hii, List.getD_eq_getElem _ _ (by omega : i < mlist.length)]
    exact hgi

/-- Invariant carried by the hierarchy loop: the current per-original-node
labels cover exactly `{1, ..., nh}` and every recorded level's labels
cover a contiguous range; on normal exit both the returned renumbered
labels and every level's labels are contiguous. -/
theorem levelLoop_contig (gamma : ℚ) (sc : Scales) (vis : ℕ → ℕ → List ℕ)
    (n : ℕ) :
    ∀ fuel t W0 W1 nh ciCur ciAcc qPrev qCur qs r,
      levelLoop gamma sc vis n fuel t W0 W1 nh ciCur ciAcc qPrev qCur qs
        = .ok r →
      1 ≤ nh → nh ≤ n →
      (Finset.range n).image ciCur = Finset.Icc 1 nh →
      (∀ f ∈ ciAcc, ∃ k, 1 ≤ k ∧ k ≤ n ∧
        (Finset.range n).image f = Finset.Icc 1 k) →
      (ContigList r.ciRet n ∧
       ∀ f ∈ r.ciList, ∃ k, 1 ≤ k ∧ k ≤ n ∧
         (Finset.range n).image f = Finset.Icc 1 k) := by
  intro fuel
  induction fuel with
  | zero =>
    intro t W0 W1 nh ciCur ciAcc qPrev qCur qs r h hnh1 hnhn himg hacc
    rw [levelLoop] at h
    by_cases hc : tol < qCur - qPrev
    · rw [if_pos hc] at h; cases h
    · rw [if_neg hc] at h
      cases h
      refine ⟨⟨((List.range n).map ciCur).dedup.length, ?_,
        renumber_toFinset _⟩, hacc⟩
      have := (List.dedup_sublist ((List.range n).map ciCur)).length_le
      simpa using this
  | succ f ih =>
    intro t W0 W1 nh ciCur ciAcc qPrev qCur qs r h hnh1 hnhn himg hacc
    rw [levelLoop] at h
    by_cases hc : tol < qCur - qPrev
    · rw [if_pos hc] at h
      dsimp only at h
      cases hp : passLoop gamma sc W0 W1 (fun j => colSum nh W0 j)
          (fun j => colSum nh W1 j) nh vis 1000 t (initState W0 W1
            (fun j => colSum nh W0 j) (fun j => colSum nh W1 j)) with
      | error e => rw [hp] at h; cases h
      | ok p =>
        obtain ⟨st, t'⟩ := p
        rw [hp] at h
        dsimp only at h
        by_cases hml : renumber ((List.range nh).map st.m) = []
        · rw [if_pos hml] at h; cases h
        · rw [if_neg hml] at h
          have hlen : (renumber ((List.range nh).map st.m)).length = nh := by
            rw [renumber_length]
            simp
          have hfin : (renumber ((List.range nh).map st.m)).toFinset
              = Finset.Icc 1 ((List.range nh).map st.m).dedup.length :=
            renumber_toFinset _
          have hk1 : 1 ≤ ((List.range nh).map st.m).dedup.length := by
            obtain ⟨x, hx⟩ := List.exists_mem_of_ne_nil _ hml
            have hx2 := hfin ▸ List.mem_toFinset.mpr hx
            have := Finset.mem_Icc.mp hx2
            omega
          have hkn : ((List.range nh).map st.m).dedup.length ≤ nh := by
            have := (List.dedup_sublist ((List.range nh).map st.m)).length_le
            simpa using this
          have hfold : (renumber ((List.range nh).map st.m)).foldl max 0
              = ((List.range nh).map st.m).dedup.length :=
            foldl_max_of_Icc _ _ hml hfin
          refine ih _ _ _ _ _ _ _ _ _ _ h ?_ ?_ ?_ ?_
          · rw [hfold]; exact hk1
          · rw [hfold]; omega
          · rw [image_comp_getD n nh ciCur _ hlen himg, hfin, hfold]
          · intro g hg
            rcases List.mem_append.mp hg with hgo | hgn
            · exact hacc g hgo
            · have hge : g = fun v => if ciCur v = 0 then 0 else
                  (renumber ((List.range nh).map st.m)).getD (ciCur v - 1) 0 := by
                simpa using hgn
              subst hge
              refine ⟨((List.range nh).map st.m).dedup.length, hk1, by omega, ?_⟩
              rw [image_comp_getD n nh ciCur _ hlen himg, hfin]
    · rw [if_neg hc] at h
      cases h
      refine ⟨⟨((List.range n).map ciCur).dedup.length, ?_,
        renumber_toFinset _⟩, hacc⟩
      have := (List.dedup_sublist ((List.range n).map ciCur)).length_le
      simpa using this

/-- C5: on every normally returning run with at least one node, the
returned community labels form a contiguous set `{1, ..., k}` with no
omissions for some `k ≤ n`, and the renumbered labels of every hierarchy
level have the same contiguous-range property. -/
theorem C5_contiguous_labels (W : Mat) (n : ℕ) (gamma : ℚ) (qtype : String)
    (vis : ℕ → ℕ → List ℕ) (hn : 1 ≤ n) (cret : List ℕ)
    (lvls : List (List ℕ))
    (h1 : runCi W n gamma qtype vis = .ok cret)
    (h2 : runLevels W n gamma qtype vis = .ok lvls) :
    ContigList cret n ∧ ∀ l ∈ lvls, ContigList l n := by
  cases hr : modularityRun W n gamma qtype vis with
  | error e =>
    rw [runCi, hr] at h1
    simp [Except.map] at h1
  | ok r =>
    rw [runCi, hr] at h1
    rw [runLevels, hr] at h2
    simp only [Except.map, Except.ok.injEq] at h1 h2
    subst h1
    subst h2
    rw [modularityRun] at hr
    cases hsc : scalesFor qtype (matSum n (posPart W))
        (matSum n (negPart W)) with
    | none => rw [hsc] at hr; cases hr
    | some sc =>
      rw [hsc] at hr
      dsimp only at hr
      have main := levelLoop_contig gamma sc vis n 300 0 (posPart W)
        (negPart W) n _ _ (-1) 0 _ r hr hn (le_refl n) (range_image_succ n)
        (by
          intro f hf
          have hfe : f = fun v => v + 1 := by simpa using hf
          subst hfe
          exact ⟨n, hn, le_refl n, range_image_succ n⟩)
      refine ⟨main.1, ?_⟩
      intro l hl
      obtain ⟨g, hg, rfl⟩ := List.mem_map.mp hl
      obtain ⟨k, _, hkn, himg⟩ := main.2 g hg
      exact ⟨k, hkn, by rw [toFinset_map_range]; exact himg⟩

/-- C5 witness: the two-triangle graph under the standard variant: the
returned labels are `[1,1,1,2,2,2]` and the two levels are
`[1,...,6]` and `[1,1,1,2,2,2]`. -/
theorem C5_contiguous_labels_witness :
    (1 : ℕ) ≤ 6 ∧
    runCi cW6 6 1 ("sta") idVisit = .ok [1, 1, 1, 2, 2, 2] ∧
    runLevels cW6 6 1 ("sta") idVisit
      = .ok [[1, 2, 3, 4, 5, 6], [1, 1, 1, 2, 2, 2], [1, 1, 1, 2, 2, 2]] ∧
    (ContigList [1, 1, 1, 2, 2, 2] 6 ∧
     ∀ l ∈ [[1, 2, 3, 4, 5, 6], [1, 1, 1, 2, 2, 2], [1, 1, 1, 2, 2, 2]],
       ContigList l 6) :=
  ⟨by decide, by decide, by decide,
   C5_contiguous_labels cW6 6 1 ("sta") idVisit (by decide) _ _
     (by decide) (by decide)⟩

/-! C7: the two iteration caps. -/

/-- C7: the inner pass loop performs at most 1000 passes and raises the
non-convergence error (whose message points at a directed input) when the
cap is reached; the hierarchy performs at most 300 levels (so the trace
holds at most 302 entries including its two sentinels) and raises the
fatal internal error at its cap; an erroring run yields no partial
labels or modularity. -/
theorem C7_iteration_caps :
    (∀ (gamma : ℚ) (sc : Scales) (W0 W1 : Mat) (kn0 kn1 : Vec) (nh : ℕ)
        (vis : ℕ → ℕ → List ℕ) (t : ℕ) (st : LMState),
      passLoop gamma sc W0 W1 kn0 kn1 nh vis 0 t st
        = .error .innerNonConvergence) ∧
    (∀ (gamma : ℚ) (sc : Scales) (W0 W1 : Mat) (kn0 kn1 : Vec) (nh : ℕ)
        (vis : ℕ → ℕ → List ℕ) (t t' : ℕ) (st : LMState),
      passLoopT gamma sc W0 W1 kn0 kn1 nh vis 1000 t st = .ok t' →
      t' - t ≤ 1000) ∧
    message .innerNonConvergence
      = "Infinite Loop was detected and stopped. This was probably caused by passing in a directed matrix." ∧
    (∀ (gamma : ℚ) (sc : Scales) (vis : ℕ → ℕ → List ℕ) (n t : ℕ)
        (W0 W1 : Mat) (nh : ℕ) (ciCur : ℕ → ℕ) (ciAcc : List (ℕ → ℕ))
        (qPrev qCur : ℚ) (qs : List ℚ),
      tol < qCur - qPrev →
      levelLoop gamma sc vis n 0 t W0 W1 nh ciCur ciAcc qPrev qCur qs
        = .error .outerNonConvergence) ∧
    message .outerNonConvergence
      = "Modularity Infinite Loop Style A.  Please contact the developer with this error." ∧
    (∀ (W : Mat) (n : ℕ) (gamma : ℚ) (qtype : String)
        (vis : ℕ → ℕ → List ℕ) (l : List ℚ),
      runQs W n gamma qtype vis = .ok l → l.length ≤ 302) ∧
    (∀ (W : Mat) (n : ℕ) (gamma : ℚ) (qtype : String)
        (vis : ℕ → ℕ → List ℕ) (e : BCTError),
      runQ W n gamma qtype vis = .error e →
      modularity_louvain_und_sign W n gamma qtype vis = .error e ∧
      runCi W n gamma qtype vis = .error e) := by
  refine ⟨?_, ?_, rfl, ?_, rfl, ?_, ?_⟩
  · intro gamma sc W0 W1 kn0 kn1 nh vis t st
    rfl
  · intro gamma sc W0 W1 kn0 kn1 nh vis t t' st h
    rw [passLoopT] at h
    cases hp : passLoop gamma sc W0 W1 kn0 kn1 nh vis 1000 t st with
    | error e => rw [hp] at h; cases h
    | ok p =>
      rw [hp] at h
      simp only [Except.map, Except.ok.injEq] at h
      subst h
      exact passLoop_ok_count gamma sc W0 W1 kn0 kn1 nh vis 1000 t st p hp
  · intro gamma sc vis n t W0 W1 nh ciCur ciAcc qPrev qCur qs h
    rw [levelLoop, if_pos h]
  · intro W n gamma qtype vis l h
    cases hr : modularityRun W n gamma qtype vis with
    | error e => rw [runQs, hr] at h; simp [Except.map] at h
    | ok r =>
      rw [runQs, hr] at h
      simp only [Except.map, Except.ok.injEq] at h
      subst h
      rw [modularityRun] at hr
      cases hsc : scalesFor qtype (matSum n (posPart W))
          (matSum n (negPart W)) with
      | none => rw [hsc] at hr; cases hr
      | some sc =>
        rw [hsc] at hr
        dsimp only at hr
        have := levelLoop_qs_len gamma sc vis n 300 0 (posPart W)
          (negPart W) n _ _ (-1) 0 _ r hr
        simpa using this
  · intro W n gamma qtype vis e h
    cases hr : modularityRun W n gamma qtype vis with
    | ok r => rw [runQ, hr] at h; simp [Except.map] at h
    | error e' =>
      rw [runQ, hr] at h
      simp only [Except.map, Except.error.injEq] at h
      subst h
      constructor
      · rw [modularity_louvain_und_sign, hr]; rfl
      · rw [runCi, hr]; rfl

/-- C7 witness: the caps and messages at concrete inputs (a one-node
zero graph for the loops, the two-node graph for the run-level parts). -/
theorem C7_iteration_caps_witness :
    passLoop 1 cSc2 zeroM zeroM zeroV zeroV 1 idVisit 0 0
        (initState zeroM zeroM zeroV zeroV) = .error .innerNonConvergence ∧
    ((1 : ℕ) - 0 ≤ 1000) ∧
    message .innerNonConvergence
      = "Infinite Loop was detected and stopped. This was probably caused by passing in a directed matrix." ∧
    levelLoop 1 cSc2 idVisit 1 0 0 zeroM zeroM 1 (fun v => v + 1)
        [fun v => v + 1] (-1) 0 [-1, 0] = .error .outerNonConvergence ∧
    message .outerNonConvergence
      = "Modularity Infinite Loop Style A.  Please contact the developer with this error." ∧
    (([-1, 0, (-1 : ℚ) / 2] : List ℚ).length ≤ 302) ∧
    modularity_louvain_und_sign cW2 2 1 ("abc") idVisit
        = .error .configError ∧
    runCi cW2 2 1 ("abc") idVisit = .error .configError :=
  ⟨C7_iteration_caps.1 1 cSc2 zeroM zeroM zeroV zeroV 1 idVisit 0
      (initState zeroM zeroM zeroV zeroV),
   C7_iteration_caps.2.1 1 cSc2 zeroM zeroM zeroV zeroV 1 idVisit 0 1
      (initState zeroM zeroM zeroV zeroV) (by decide),
   C7_iteration_caps.2.2.1,
   C7_iteration_caps.2.2.2.1 1 cSc2 idVisit 1 0 zeroM zeroM 1
      (fun v => v + 1) [fun v => v + 1] (-1) 0 [-1, 0] (by decide),
   C7_iteration_caps.2.2.2.2.1,
   C7_iteration_caps.2.2.2.2.2.1 cW2 2 4 ("pos") idVisit
      [-1, 0, (-1 : ℚ) / 2] (by decide),
   (C7_iteration_caps.2.2.2.2.2.2 cW2 2 1 ("abc") idVisit .configError
      (by decide)).1,
   (C7_iteration_caps.2.2.2.2.2.2 cW2 2 1 ("abc") idVisit .configError
      (by decide)).2⟩

/-! C9: the negative-only variant on a nonnegative matrix. -/

theorem dQvec_zero (gamma : ℚ) (sc : Scales) (W0 W1 : Mat) (kn0 kn1 : Vec)
    (hd0 : sc.d0 = 0) (hd1 : sc.d1 = 0) (st : LMState) (u mb : ℕ) :
    dQvec gamma sc W0 W1 kn0 kn1 st u mb = 0 := by
  rw [dQvec]
  split_ifs with h
  · rfl
  · rw [hd0, hd1]; ring

theorem nodeStep_zero (gamma : ℚ) (sc : Scales) (W0 W1 : Mat)
    (kn0 kn1 : Vec) (nh : ℕ) (hd0 : sc.d0 = 0) (hd1 : sc.d1 = 0)
    (st : LMState) (u : ℕ) :
    nodeStep gamma sc W0 W1 kn0 kn1 nh st u = (st, false) := by
  have hz : listMax (nodeScores gamma sc W0 W1 kn0 kn1 nh st u) = 0 := by
    apply listMax_zero
    intro x hx
    obtain ⟨mb, _, rfl⟩ := List.mem_map.mp hx
    exact dQvec_zero gamma sc W0 W1 kn0 kn1 hd0 hd1 st u mb
  rw [nodeStep]
  rw [hz, if_neg (by norm_num [tol])]

theorem passNodes_zero (gamma : ℚ) (sc : Scales) (W0 W1 : Mat)
    (kn0 kn1 : Vec) (nh : ℕ) (hd0 : sc.d0 = 0) (hd1 : sc.d1 = 0)
    (st : LMState) (order : List ℕ) :
    passNodes gamma sc W0 W1 kn0 kn1 nh st order = (st, false) := by
  induction order generalizing st with
  | nil => rfl
  | cons u r ih =>
    have hih := ih st
    rw [passNodes] at hih
    rw [passNodes, List.foldl_cons]
    dsimp only
    rw [nodeStep_zero gamma sc W0 W1 kn0 kn1 nh hd0 hd1 st u]
    exact hih

theorem passLoop_zero_scales (gamma : ℚ) (sc : Scales) (W0 W1 : Mat)
    (kn0 kn1 : Vec) (nh : ℕ) (vis : ℕ → ℕ → List ℕ) (hd0 : sc.d0 = 0)
    (hd1 : sc.d1 = 0) (fuel t : ℕ) (st : LMState) :
    passLoop gamma sc W0 W1 kn0 kn1 nh vis (fuel + 1) t st
      = .ok (st, t + 1) := by
  rw [passLoop]
  rw [passNodes_zero gamma sc W0 W1 kn0 kn1 nh hd0 hd1 st (vis t nh)]
  rfl

/-- When both scaling constants vanish, every level makes no move and has
modularity exactly 0, so the run stops after one level with Q = 0. -/
theorem levelLoop_zero_scales (gamma : ℚ) (sc : Scales)
    (vis : ℕ → ℕ → List ℕ) (n : ℕ) (hd0 : sc.d0 = 0) (hd1 : sc.d1 = 0)
    (fuel t : ℕ) (W0 W1 : Mat) (nh : ℕ) (hnh : 1 ≤ nh) (ciCur : ℕ → ℕ)
    (ciAcc : List (ℕ → ℕ)) (qs : List ℚ) :
    ∃ r, levelLoop gamma sc vis n (fuel + 1) t W0 W1 nh ciCur ciAcc
        (-1) 0 qs = .ok r ∧ r.Q = 0 := by
  rw [levelLoop]
  rw [if_pos (by norm_num [tol] : tol < (0 : ℚ) - (-1))]
  dsimp only
  have hpl := passLoop_zero_scales gamma sc W0 W1
    (fun j => colSum nh W0 j) (fun j => colSum nh W1 j) nh vis hd0 hd1
    999 t (initState W0 W1 (fun j => colSum nh W0 j)
      (fun j => colSum nh W1 j))
  norm_num at hpl
  rw [hpl]
  dsimp only
  have hml : ¬ renumber ((List.range nh).map
      (initState W0 W1 (fun j => colSum nh W0 j)
        (fun j => colSum nh W1 j)).m) = [] := by
    intro hcon
    have hL := renumber_length ((List.range nh).map
      (initState W0 W1 (fun j => colSum nh W0 j)
        (fun j => colSum nh W1 j)).m)
    rw [hcon] at hL
    simp at hL
    omega
  rw [if_neg hml]
  rw [show ∀ a b : ℚ, sc.d0 * a - sc.d1 * b = 0 from
    fun a b => by rw [hd0, hd1]; ring]
  rw [levelLoop.eq_def]
  dsimp only
  rw [if_neg (by norm_num [tol] : ¬ tol < (0 : ℚ) - 0)]
  exact ⟨_, rfl, rfl⟩

/-- C9: the negative-only variant on a matrix with no negative entries
returns normally with Q = 0: `s1 = 0` forces `d1 = 0`, the variant fixes
`d0 = 0`, so no move is ever accepted, the single level has modularity 0,
and no division-by-zero failure occurs. -/
theorem C9_negative_only (W : Mat) (n : ℕ) (gamma : ℚ)
    (vis : ℕ → ℕ → List ℕ) (hn : 1 ≤ n)
    (hW : ∀ i, i < n → ∀ j, j < n → 0 ≤ W i j) :
    runQ W n gamma ("neg") vis = .ok 0 := by
  have hs1 : matSum n (negPart W) = 0 := by
    apply Finset.sum_eq_zero
    intro i hi
    apply Finset.sum_eq_zero
    intro j hj
    have := hW i (Finset.mem_range.mp hi) j (Finset.mem_range.mp hj)
    simp [negPart, not_lt.mpr this]
  rw [runQ, modularityRun]
  have hscales : scalesFor ("neg") (matSum n (posPart W))
      (matSum n (negPart W))
      = some (adjustScales ⟨matSum n (posPart W), 0, 0, 0⟩) := by
    rw [hs1]
    simp [scalesFor, qtypeScales]
  rw [hscales]
  dsimp only
  have hd0 : (adjustScales ⟨matSum n (posPart W), 0, 0, 0⟩).d0 = 0 := by
    by_cases h0 : matSum n (posPart W) = 0 <;> simp [adjustScales, h0]
  have hd1 : (adjustScales ⟨matSum n (posPart W), 0, 0, 0⟩).d1 = 0 := by
    by_cases h0 : matSum n (posPart W) = 0 <;> simp [adjustScales, h0]
  obtain ⟨r, hr, hQ⟩ := levelLoop_zero_scales gamma
    (adjustScales ⟨matSum n (posPart W), 0, 0, 0⟩) vis n hd0 hd1
    299 0 (posPart W) (negPart W) n hn (fun v => v + 1) [fun v => v + 1]
    [-1, 0]
  rw [show (300 : ℕ) = 299 + 1 from rfl, hr]
  simp [Except.map, hQ]

/-- C9 witness: the all-nonnegative two-node graph with gamma 3. -/
theorem C9_negative_only_witness :
    (1 : ℕ) ≤ 2 ∧ (∀ i, i < 2 → ∀ j, j < 2 → (0 : ℚ) ≤ cW2 i j) ∧
    runQ cW2 2 3 ("neg") idVisit = .ok 0 :=
  ⟨by decide, by decide,
   C9_negative_only cW2 2 3 idVisit (by decide) (by decide)⟩

end Brainz
